import Mathlib

/-!
# Verification of the ecc-acc dynamic accumulator

This development embeds the mathematical core of the `ecc-acc` JavaScript
module (classes `Accumulator` and `Prover`) and proves properties of the
embedded operations.

## Modelling conventions

* The underlying elliptic-curve group is an external collaborator: a cyclic
  group of prime order `n` with generator `g` and identity `O`, acted on by
  scalars in `Z_n`.  Every such group is isomorphic, as a `Z_n`-module with a
  chosen generator, to `Z_n` itself via the discrete logarithm, and the code
  only uses point addition, scalar multiplication, `O`, `g`, and equality,
  all of which transfer along that isomorphism.  We therefore represent a
  point by its discrete logarithm: `Point := ZMod n`, with
  `g = basePoint = 1`, `O = infPoint = 0`, `P.add(R) = P + R`, and
  `P.multiply(s) = s * P`.
* Scalars are `ZMod n`.  The JavaScript `modInv` (from `bigint-mod-arith`)
  throws when its argument has no inverse; for prime `n` that happens exactly
  on `0`, which we model by an explicit zero test guarding `⁻¹`.
* Data elements `d` are opaque strings/buffers; we model them as `ℕ` and the
  hash-to-scalar `map(H, d, n)` as an arbitrary function `mapH : ℕ → ZMod n`
  (it is deterministic and total in the source).
* The cursor `i` is `null` or a JavaScript number; we model it as `Option ℤ`.
  JavaScript coerces `null` to `0` in relational comparisons and arithmetic
  (`0 <= null` is true, `null - 1` is `-1`); the helper `jsNum` performs this
  coercion exactly where the source relies on it.
* The `Prover`'s point sequence `this.Q` is a JavaScript array indexed by
  numbers, possibly with holes; reading a missing index yields `undefined`
  and any method call on it throws.  We model it as `ℤ → Option (ZMod n)`
  and propagate a missing read as failure (`none`) of the operation.
* In `Accumulator.del` the source executes `assert(this.verify({d, v, w}))`
  where `verify` is `async`: the assert receives a Promise, which is always
  truthy, so the membership check can never fail.  The embedded `del`
  faithfully performs no membership check; its only failure points are the
  two `modInv` calls.  (When the second `modInv` throws, the JS object has
  already mutated `z`; no claim below depends on that partially-mutated
  state, and we model both throws as `none`.)
-/

/-- Opaque user data (`String | Buffer` in the source). -/
abbrev Data : Type := ℕ

/-- The generator `g` (`curve.ProjectivePoint.BASE`) in discrete-log
coordinates. -/
def basePoint (n : ℕ) : ZMod n := 1

/-- The identity `O` (`curve.ProjectivePoint.ZERO`) in discrete-log
coordinates. -/
def infPoint (n : ℕ) : ZMod n := 0

/-- JavaScript number coercion of the cursor: `ToNumber(null) = 0`.  Used
where the source applies `<`/`<=`/`-` to a possibly-`null` index. -/
def jsNum (i : Option ℤ) : ℤ :=
  match i with
  | none => 0
  | some t => t

/-- The cursor after an `add`: `this.i === null ? 0 : this.i + 1`. -/
def nextIdx (i : Option ℤ) : Option ℤ :=
  match i with
  | none => some 0
  | some t => some (t + 1)

/-- The index at which `Prover.update` stores the received point:
`i === null ? 1 : i + 1`. -/
def installIdx (i : Option ℤ) : ℤ :=
  match i with
  | none => 1
  | some mi => mi + 1

/-- `Prover.update`'s test for a deletion message:
`i === null || i < this.i` (the `<` coerces a `null` `this.i` to `0`). -/
def isDeletion (msgi selfi : Option ℤ) : Bool :=
  match msgi with
  | none => true
  | some mi => decide (mi < jsNum selfi)

/-- The modular inverse `modInv(x, n)` (from `bigint-mod-arith`), which on
the prime group order `n` returns the unique inverse of a unit.  We compute
it as `x ^ (n - 2)`, which agrees with the field inverse on every nonzero
argument when `n` is prime (Fermat); every use in the source is guarded by
the zero test modelling `modInv`'s throw on a non-unit. -/
def modInv {n : ℕ} (x : ZMod n) : ZMod n := x ^ (n - 2)

/-- A witness `{d, v, w}` as consumed by `verify` and `del`. -/
structure Witness (n : ℕ) where
  d : Data
  v : ZMod n
  w : ZMod n
  deriving DecidableEq

/-- The record `{d, z, v, w, Q, i}` returned by `Accumulator.add`. -/
structure WitnessUpdate (n : ℕ) where
  d : Data
  z : ZMod n
  v : ZMod n
  w : ZMod n
  Q : ZMod n
  i : Option ℤ
  deriving DecidableEq

/-- The record `{d, z, Q, i}` returned by `Accumulator.del`, and the shape
destructured by `Prover.update` (a `WitnessUpdate` also has these fields). -/
structure Update (n : ℕ) where
  d : Data
  z : ZMod n
  Q : ZMod n
  i : Option ℤ
  deriving DecidableEq

/-- The fields of a `WitnessUpdate` that `Prover.update` destructures. -/
def WitnessUpdate.toUpdate {n : ℕ} (u : WitnessUpdate n) : Update n :=
  ⟨u.d, u.z, u.Q, u.i⟩

/-- The fields of a `WitnessUpdate` that `Accumulator.del` destructures. -/
def WitnessUpdate.toWitness {n : ℕ} (u : WitnessUpdate n) : Witness n :=
  ⟨u.d, u.v, u.w⟩

/-- Accumulator state `(c, z, Q, i)`.  The curve constants `inf`, `g`, `n`
are fixed by the type parameter; `H` is passed to the operations as `mapH`. -/
structure Accumulator (n : ℕ) where
  c : ZMod n
  z : ZMod n
  Q : ZMod n
  i : Option ℤ
  deriving DecidableEq

namespace Accumulator

/-- The constructor: `z = g`, `Q = inf`, `i = null`; the secret `c` is the
supplied or randomly generated scalar. -/
def new (n : ℕ) (c : ZMod n) : Accumulator n :=
  { c := c, z := basePoint n, Q := infPoint n, i := none }

/-- `Accumulator.add(d)`.  Returns the updated state together with the
emitted `WitnessUpdate`. -/
def add {n : ℕ} (mapH : Data → ZMod n) (acc : Accumulator n) (d : Data) :
    Accumulator n × WitnessUpdate n :=
  -- Map data to e in Zq.
  let e := mapH d
  -- Create witness before updating z.
  let v := acc.z
  let w := acc.c * acc.z
  -- Update z' = z ^ ((e + c) mod n).
  let z' := (e + acc.c) * acc.z
  -- If Q is the point at infinity, Q = g, otherwise Q = Q ^ c.
  let Q' := if acc.Q = infPoint n then basePoint n else acc.c * acc.Q
  let Qout := acc.c * Q'
  -- If i is Null, i = 0, otherwise i + 1.
  let i' : Option ℤ := nextIdx acc.i
  ({ acc with z := z', Q := Q', i := i' }, ⟨d, z', v, w, Qout, i'⟩)

/-- `Accumulator.verify({d, v})`: true iff `z = v ^ ((e + c) mod n)`.
The `w` component of the witness is not used. -/
def verify {n : ℕ} (mapH : Data → ZMod n) (acc : Accumulator n)
    (wit : Witness n) : Bool :=
  let e := mapH wit.d
  decide (acc.z = (e + acc.c) * wit.v)

/-- `Accumulator.del({d, v, w})`.  The source's `assert(this.verify(...))`
asserts on a Promise (see the header comment) and never fails, so no
membership check is performed here.  The operation fails (`none`) exactly
where a `modInv` throws. -/
def del {n : ℕ} (mapH : Data → ZMod n) (acc : Accumulator n)
    (wit : Witness n) : Option (Accumulator n × Update n) :=
  -- Map data to e in Zq.
  let e := mapH wit.d
  -- Update z' = z ^ ((e + c)^-1 mod n); modInv throws on a non-unit.
  if e + acc.c = 0 then none
  else
    let z' := modInv (e + acc.c) * acc.z
    -- If Q is g, Q = the point at infinity, otherwise Q = Q ^ (c ^ -1).
    let Qout := acc.Q
    if acc.Q ≠ basePoint n ∧ acc.c = 0 then none
    else
      let Q' := if acc.Q = basePoint n then infPoint n else modInv acc.c * acc.Q
      -- If i is 0, i = Null, otherwise i = i - 1.
      let i' : Option ℤ := if acc.i = some 0 then none else some (jsNum acc.i - 1)
      some ({ acc with z := z', Q := Q', i := i' }, ⟨wit.d, z', Qout, i'⟩)

/-- `Accumulator.prove(d)`: `v = z ^ ((e + c)^-1)`, `w = z ^ (e^-1)`.
Fails (`none`) where a `modInv` throws, i.e. on `e + c = 0` or `e = 0`. -/
def prove {n : ℕ} (mapH : Data → ZMod n) (acc : Accumulator n) (d : Data) :
    Option (Witness n) :=
  let e := mapH d
  if e + acc.c = 0 then none
  else if e = 0 then none
  else some ⟨d, modInv (e + acc.c) * acc.z, modInv e * acc.z⟩

end Accumulator

/-- `combinate(size, elements)`: all size-`size` combinations of `elements`,
in the source's lexicographic-by-index order
(`combinate(2, [a, b, c]) = [[a, b], [a, c], [b, c]]`,
`combinate(0, xs) = [[]]`). -/
def combinate {α : Type} : ℕ → List α → List (List α)
  | 0, _ => [[]]
  | _ + 1, [] => []
  | size + 1, x :: xs =>
      ((combinate size xs).map fun group => x :: group) ++ combinate (size + 1) xs

/-- One entry of the `coefficients` array in `Prover.prove`: the sum over all
size-`size` groups of the product of the group's elements
(`combinate(i, A).reduce((sum, group) => (sum + group.reduce((product, e) =>
(product * e) % n, 1n)) % n, 0n)`). -/
def coeffOf {n : ℕ} (size : ℕ) (A : List (ZMod n)) : ZMod n :=
  (combinate size A).foldl
    (fun sum group => sum + group.foldl (fun product e => product * e) 1) 0

/-- Prover state `(A, Q, i, z)`.  `Q` is a JavaScript array read at integer
indices (`none` = `undefined`); `z` is `undefined` until the first update. -/
structure Prover (n : ℕ) where
  A : List (ZMod n)
  Q : ℤ → Option (ZMod n)
  i : Option ℤ
  z : Option (ZMod n)

namespace Prover

/-- The constructor: `A = []`, `Q = [g]`, `i = null`, `z = undefined`. -/
def new (n : ℕ) : Prover n :=
  { A := []
    Q := fun j => if j = 0 then some (basePoint n) else none
    i := none
    z := none }

/-- `Prover.update({d, z, Q, i})`.  A deletion is a message with
`i === null || i < this.i` (the `<` coerces a `null` `this.i` to `0`);
its element is removed with `filter(v => v !== e)`, which drops every
occurrence of `e`.  Otherwise `e` is pushed.  `Q` is stored at index
`i === null ? 1 : i + 1`. -/
def update {n : ℕ} (mapH : Data → ZMod n) (P : Prover n) (msg : Update n) :
    Prover n :=
  let e := mapH msg.d
  let A' := if isDeletion msg.i P.i then P.A.filter (fun v => v ≠ e)
            else P.A ++ [e]
  let idx : ℤ := installIdx msg.i
  { A := A'
    Q := fun j => if j = idx then some msg.Q else P.Q j
    i := msg.i
    z := some msg.z }

/-- The loop of `Prover.prove` computing `v` and `w`:
`v = v.add(Q[t - j].multiply(coefficients[j]))`,
`w = w.add(Q[t - j + 1].multiply(coefficients[j]))` for `j = 0, 1, ...`,
failing (`none`) on the first read of a missing `Q` index. -/
def proveLoop {n : ℕ} (Q : ℤ → Option (ZMod n)) (t : ℤ) :
    ℕ → List (ZMod n) → ZMod n × ZMod n → Option (ZMod n × ZMod n)
  | _, [], vw => some vw
  | j, coef :: rest, (v, w) =>
      match Q (t - (j : ℤ)) with
      | none => none
      | some qv =>
          match Q (t - (j : ℤ) + 1) with
          | none => none
          | some qw => proveLoop Q t (j + 1) rest (v + coef * qv, w + coef * qw)

/-- `Prover.prove(d)`.  `A = this.A.filter(v => v !== e)` removes every
occurrence of `e`; the loops run for `j = 0 .. this.i` where a `null`
`this.i` coerces to `0`; each iteration reads `Q[this.i - j]` and
`Q[this.i - j + 1]`, throwing (`none`) on a missing index. -/
def prove {n : ℕ} (mapH : Data → ZMod n) (P : Prover n) (d : Data) :
    Option (Witness n) :=
  let e := mapH d
  let A := P.A.filter (fun v => v ≠ e)
  let t : ℤ := jsNum P.i
  let coefficients := (List.range (t + 1).toNat).map fun j => coeffOf j A
  (proveLoop P.Q t 0 coefficients (infPoint n, infPoint n)).map
    fun vw => ⟨d, vw.1, vw.2⟩

/-- `Prover.verify({d, v, w})`: `this.z.equals(v.multiply(e).add(w))`.
On a fresh prover `this.z` is `undefined` and the call throws (`none`). -/
def verify {n : ℕ} (mapH : Data → ZMod n) (P : Prover n) (wit : Witness n) :
    Option Bool :=
  let e := mapH wit.d
  P.z.map fun z => decide (z = e * wit.v + wit.w)

end Prover

/-! ## Operation traces

A client drives the system with a sequence of `Accumulator.add` /
`Accumulator.del` calls, routing each emitted record to `Prover.update` in
emission order (the data flow of the README tutorial and of the spec's §2).
`runSim` executes such a sequence, tracking alongside the accumulator the
multiset `A` of mapped scalars currently accumulated (inserted by a
successful `add`, one occurrence erased by a successful `del`), and feeding
the emitted messages to a prover.  The prover is a pure observer: it does
not influence the accumulator. -/

/-- A client operation: `add(d)` or `del(witness)`. -/
inductive Op (n : ℕ) where
  | add (d : Data)
  | del (wit : Witness n)

/-- Combined state: accumulator, tracked multiset of accumulated scalars,
and an observing prover. -/
structure SimState (n : ℕ) where
  acc : Accumulator n
  A : Multiset (ZMod n)
  prov : Prover n

/-- Fresh accumulator with secret `c`, empty multiset, fresh prover. -/
def initState (n : ℕ) (c : ZMod n) : SimState n :=
  ⟨Accumulator.new n c, 0, Prover.new n⟩

/-- One operation: run it on the accumulator and, if it succeeds, route the
emitted record to the prover and update the tracked multiset. -/
def stepOp {n : ℕ} (mapH : Data → ZMod n) (st : SimState n) (op : Op n) :
    Option (SimState n) :=
  match op with
  | .add d =>
      let (acc', u) := Accumulator.add mapH st.acc d
      some ⟨acc', mapH d ::ₘ st.A, Prover.update mapH st.prov u.toUpdate⟩
  | .del wit =>
      match Accumulator.del mapH st.acc wit with
      | none => none
      | some (acc', u) =>
          some ⟨acc', st.A.erase (mapH wit.d), Prover.update mapH st.prov u⟩

/-- Run a sequence of operations; `none` if any operation fails. -/
def runSim {n : ℕ} (mapH : Data → ZMod n) :
    SimState n → List (Op n) → Option (SimState n)
  | st, [] => some st
  | st, op :: ops =>
      match stepOp mapH st op with
      | none => none
      | some st' => runSim mapH st' ops

/-- Side condition of one operation, parametrised by a requirement on adds
and one on dels (each sees the current multiset and the mapped scalar). -/
def opCond {n : ℕ} (mapH : Data → ZMod n)
    (addC delC : Multiset (ZMod n) → ZMod n → Prop)
    (st : SimState n) : Op n → Prop
  | .add d => addC st.A (mapH d)
  | .del wit => delC st.A (mapH wit.d)

/-- A trace whose operations all succeed and satisfy the given side
conditions at the state where they execute. -/
inductive TraceOK {n : ℕ} (mapH : Data → ZMod n)
    (addC delC : Multiset (ZMod n) → ZMod n → Prop) :
    SimState n → List (Op n) → Prop
  | nil (st : SimState n) : TraceOK mapH addC delC st []
  | cons (st : SimState n) (op : Op n) (st' : SimState n) (ops : List (Op n))
      (hc : opCond mapH addC delC st op)
      (hs : stepOp mapH st op = some st')
      (ht : TraceOK mapH addC delC st' ops) :
      TraceOK mapH addC delC st (op :: ops)

/-- No condition on an operation. -/
def anyOp {n : ℕ} : Multiset (ZMod n) → ZMod n → Prop := fun _ _ => True

/-- A deletion is of a currently-accumulated scalar. -/
def delMem {n : ℕ} : Multiset (ZMod n) → ZMod n → Prop := fun A e => e ∈ A

/-- A deletion is of a currently-accumulated scalar, and the secret is not
of small multiplicative order relative to the current count (this is what
makes the `Q.equals(g)` branch of `del` fire exactly on the last element). -/
def delMemOrd {n : ℕ} (c : ZMod n) : Multiset (ZMod n) → ZMod n → Prop :=
  fun A e => e ∈ A ∧ (2 ≤ Multiset.card A → c ^ (Multiset.card A - 1) ≠ 1)

/-- An addition's scalar is not already accumulated (pairwise-distinct
accumulated scalars). -/
def addFresh {n : ℕ} : Multiset (ZMod n) → ZMod n → Prop := fun A e => e ∉ A

/-! ## State invariants -/

/-- The commitment invariant: `z = g · ∏_{e ∈ A} (e + c)`. -/
def InvZ {n : ℕ} (c : ZMod n) (st : SimState n) : Prop :=
  st.acc.c = c ∧ st.acc.z = (st.A.map (· + c)).prod * basePoint n

/-- The auxiliary-point/cursor invariant together with the prover-tracking
invariant: with `k` accumulated scalars, the accumulator stores `i = k - 1`
and `Q = g · c^(k-1)` (resp. `i = ⊥`, `Q = O` for `k = 0`); the prover's
cursor matches, its `Q[j]` equals `g · c^j` for `0 ≤ j ≤ k`, and its `z` is
the accumulator's commitment (or still `undefined` before any message). -/
def InvPQ {n : ℕ} (c : ZMod n) (st : SimState n) : Prop :=
  st.acc.c = c ∧
  ((st.A = 0 ∧ st.acc.i = none ∧ st.acc.Q = infPoint n) ∨
    (st.A ≠ 0 ∧ st.acc.i = some ((Multiset.card st.A : ℤ) - 1) ∧
      st.acc.Q = c ^ (Multiset.card st.A - 1) * basePoint n)) ∧
  st.prov.i = st.acc.i ∧
  (∀ j : ℕ, j ≤ Multiset.card st.A →
    st.prov.Q (j : ℤ) = some (c ^ j * basePoint n)) ∧
  ((st.prov.z = none ∧ st.A = 0) ∨ st.prov.z = some st.acc.z)

/-- Full simulation invariant: commitment and prover-tracking invariants,
and the prover's element list carries exactly the accumulated multiset,
without duplicates. -/
def InvFull {n : ℕ} (c : ZMod n) (st : SimState n) : Prop :=
  InvZ c st ∧ InvPQ c st ∧ (st.prov.A : Multiset (ZMod n)) = st.A ∧
    st.A.Nodup

/-- `dotPow c [a₀, a₁, ...] e = a₀ * c^e + a₁ * c^(e-1) + ...`: the value of
the linear combinations computed by `Prover.prove` when `Q[j] = c^j`. -/
def dotPow {n : ℕ} (c : ZMod n) : List (ZMod n) → ℕ → ZMod n
  | [], _ => 0
  | a :: rest, e => a * c ^ e + dotPow c rest (e - 1)

/-! ## Concrete instances

Concrete hashes, traces and states used by the closed theorems below.  The
"hash" `mapW5`/`mapW7` reduces the data modulo the group order, which is one
legitimate instantiation of the external hash-to-scalar adapter. -/

def mapW5 : Data → ZMod 5 := fun d => (d : ZMod 5)

def mapW7 : Data → ZMod 7 := fun d => (d : ZMod 7)

def opsC1 : List (Op 5) := [.add 1, .del ⟨1, 0, 0⟩]

def stC1 : SimState 5 := (runSim mapW5 (initState 5 2) opsC1).getD (initState 5 2)

def opsC2 : List (Op 7) := [.add 2, .add 3, .add 3, .del ⟨3, 5, 5⟩]

def stC2 : SimState 7 := (runSim mapW7 (initState 7 1) opsC2).getD (initState 7 1)

def witC2 : Witness 7 := (Prover.prove mapW7 stC2.prov 2).getD ⟨2, 0, 0⟩

def opsC2w : List (Op 5) := [.add 1, .add 2]

def stC2w : SimState 5 := (runSim mapW5 (initState 5 2) opsC2w).getD (initState 5 2)

def accC3 : Accumulator 5 := Accumulator.new 5 1

def witC3 : Witness 5 := ⟨1, 1, 0⟩

def accC3' : Accumulator 5 := { c := 1, z := 3, Q := 0, i := some (-1) }

def updC3 : Update 5 := ⟨1, 3, 0, some (-1)⟩

def opsC5 : List (Op 5) := [.add 1]

def stC5 : SimState 5 := (runSim mapW5 (initState 5 2) opsC5).getD (initState 5 2)

def opsC5w : List (Op 5) := [.add 1, .add 2]

def stC5w : SimState 5 := (runSim mapW5 (initState 5 2) opsC5w).getD (initState 5 2)

def accC6 : Accumulator 5 := Accumulator.new 5 1

def witC6 : Witness 5 := ⟨1, 3, 1⟩

def provC6 : Prover 5 := { Prover.new 5 with z := some accC6.z }

def opsC7 : List (Op 5) := [.add 0, .add 2]

def stC7 : SimState 5 := (runSim mapW5 (initState 5 4) opsC7).getD (initState 5 4)

def accC7w : Accumulator 5 := { c := 2, z := 3, Q := 4, i := some 1 }

def opsC8 : List (Op 5) :=
  [.add 2, .add 3, .add 0, .del ⟨0, 0, 0⟩, .del ⟨3, 0, 0⟩]

def stC8 : SimState 5 := (runSim mapW5 (initState 5 4) opsC8).getD (initState 5 4)

def opsC8w : List (Op 5) := [.add 1]

def stC8w : SimState 5 := (runSim mapW5 (initState 5 2) opsC8w).getD (initState 5 2)

def provC9 : Prover 5 :=
  Prover.update mapW5
    (Prover.update mapW5 (Prover.new 5) ⟨3, 1, 1, some 0⟩) ⟨3, 1, 1, some 1⟩

def msgC9 : Update 5 := ⟨3, 1, 1, none⟩

/-! ## Generic facts about traces -/

theorem jsNum_none : jsNum none = 0 := rfl

theorem jsNum_some (t : ℤ) : jsNum (some t) = t := rfl

theorem basePoint_eq_one (n : ℕ) : basePoint n = 1 := rfl

theorem infPoint_eq_zero (n : ℕ) : infPoint n = 0 := rfl


/-! ## The elementary-symmetric-polynomial computation of `Prover.prove` -/

theorem combinate_zero {α : Type} (l : List α) : combinate 0 l = [[]] := by
  cases l <;> rfl

theorem combinate_succ_nil {α : Type} (j : ℕ) :
    combinate (j + 1) ([] : List α) = [] := rfl

theorem combinate_succ_cons {α : Type} (j : ℕ) (x : α) (xs : List α) :
    combinate (j + 1) (x :: xs) =
      ((combinate j xs).map fun group => x :: group) ++
        combinate (j + 1) xs := rfl

/-- There are no over-sized combinations. -/
theorem combinate_eq_nil {α : Type} :
    ∀ (xs : List α) (j : ℕ), xs.length < j → combinate j xs = [] := by
  intro xs
  induction xs with
  | nil =>
      intro j hj
      cases j with
      | zero => exact absurd hj (by omega)
      | succ j => rfl
  | cons x xs ih =>
      intro j hj
      cases j with
      | zero => exact absurd hj (by omega)
      | succ j =>
          rw [combinate_succ_cons, ih j (by simpa using hj),
            ih (j + 1) (by simp at hj ⊢; omega)]
          rfl

/-- Pulling an addition out of the `reduce` accumulator. -/
theorem coeff_foldl_add {n : ℕ} :
    ∀ (L : List (List (ZMod n))) (a b : ZMod n),
      L.foldl (fun sum group =>
        sum + group.foldl (fun product e => product * e) 1) (a + b) =
      a + L.foldl (fun sum group =>
        sum + group.foldl (fun product e => product * e) 1) b := by
  intro L
  induction L with
  | nil => intro a b; rfl
  | cons g L ih =>
      intro a b
      show L.foldl _ (a + b + _) = a + L.foldl _ (b + _)
      rw [add_assoc]
      exact ih a _

/-- Pulling a factor out of the inner `reduce` accumulator. -/
theorem prod_foldl_mul {n : ℕ} :
    ∀ (g : List (ZMod n)) (a : ZMod n),
      g.foldl (fun product e => product * e) a =
        a * g.foldl (fun product e => product * e) 1 := by
  intro g
  induction g with
  | nil => intro a; simp
  | cons e g ih =>
      intro a
      show g.foldl _ (a * e) = a * g.foldl _ (1 * e)
      rw [ih (a * e), ih (1 * e)]
      ring

/-- The sum of products over groups each extended by `x` is `x` times the
plain sum of products. -/
theorem coeff_foldl_map_cons {n : ℕ} (x : ZMod n) :
    ∀ C : List (List (ZMod n)),
      (C.map fun group => x :: group).foldl (fun sum group =>
        sum + group.foldl (fun product e => product * e) 1) 0 =
      x * C.foldl (fun sum group =>
        sum + group.foldl (fun product e => product * e) 1) 0 := by
  intro C
  induction C with
  | nil => simp
  | cons g C ih =>
      show (C.map _).foldl _ (0 + (x :: g).foldl _ 1) =
        x * C.foldl _ (0 + g.foldl _ 1)
      have hx : (x :: g).foldl (fun product e => product * e) 1 =
          x * g.foldl (fun product e => product * e) 1 := by
        show g.foldl _ (1 * x) = _
        rw [prod_foldl_mul g (1 * x), one_mul]
      rw [zero_add, zero_add, hx]
      have h1 := coeff_foldl_add (n := n)
      calc (C.map fun group => x :: group).foldl (fun sum group =>
              sum + group.foldl (fun product e => product * e) 1)
              (x * g.foldl (fun product e => product * e) 1)
          = x * g.foldl (fun product e => product * e) 1 +
              (C.map fun group => x :: group).foldl (fun sum group =>
                sum + group.foldl (fun product e => product * e) 1) 0 := by
            have := coeff_foldl_add (C.map fun group => x :: group)
              (x * g.foldl (fun product e => product * e) 1) 0
            rw [add_zero] at this
            exact this
        _ = x * g.foldl (fun product e => product * e) 1 +
              x * C.foldl (fun sum group =>
                sum + group.foldl (fun product e => product * e) 1) 0 := by
            rw [ih]
        _ = x * (g.foldl (fun product e => product * e) 1 +
              C.foldl (fun sum group =>
                sum + group.foldl (fun product e => product * e) 1) 0) := by
            ring
        _ = _ := by
            have := coeff_foldl_add C
              (g.foldl (fun product e => product * e) 1) 0
            rw [add_zero] at this
            rw [this]

theorem coeffOf_zero {n : ℕ} (A : List (ZMod n)) : coeffOf 0 A = 1 := by
  rw [coeffOf, combinate_zero]
  show (0 : ZMod n) + [].foldl (fun product e => product * e) 1 = 1
  simp

theorem coeffOf_eq_zero {n : ℕ} (A : List (ZMod n)) (j : ℕ)
    (h : A.length < j) : coeffOf j A = 0 := by
  rw [coeffOf, combinate_eq_nil A j h]
  rfl

/-- The recurrence `σ_{j+1}(x :: xs) = x σ_j(xs) + σ_{j+1}(xs)`. -/
theorem coeffOf_succ_cons {n : ℕ} (j : ℕ) (x : ZMod n) (xs : List (ZMod n)) :
    coeffOf (j + 1) (x :: xs) = x * coeffOf j xs + coeffOf (j + 1) xs := by
  rw [coeffOf, combinate_succ_cons, List.foldl_append, coeff_foldl_map_cons]
  have := coeff_foldl_add (combinate (j + 1) xs)
    (x * coeffOf j xs) 0
  rw [add_zero] at this
  exact this

theorem dotPow_nil {n : ℕ} (c : ZMod n) (e : ℕ) : dotPow c [] e = 0 := rfl

theorem dotPow_cons {n : ℕ} (c a : ZMod n) (l : List (ZMod n)) (e : ℕ) :
    dotPow c (a :: l) e = a * c ^ e + dotPow c l (e - 1) := rfl

theorem dotPow_concat {n : ℕ} (c : ZMod n) :
    ∀ (l : List (ZMod n)) (a : ZMod n) (e : ℕ),
      dotPow c (l ++ [a]) e = dotPow c l e + a * c ^ (e - l.length) := by
  intro l
  induction l with
  | nil => intro a e; simp [dotPow]
  | cons b l ih =>
      intro a e
      rw [List.cons_append, dotPow_cons, ih a (e - 1), dotPow_cons]
      rw [List.length_cons, add_assoc, Nat.sub_sub]
      have harr : e - (1 + l.length) = e - (l.length + 1) := by omega
      rw [harr]

theorem dotPow_map_add {n : ℕ} (c : ZMod n) (f g : ℕ → ZMod n) :
    ∀ (l : List ℕ) (e : ℕ),
      dotPow c (l.map fun j => f j + g j) e =
        dotPow c (l.map f) e + dotPow c (l.map g) e := by
  intro l
  induction l with
  | nil => intro e; simp [dotPow]
  | cons j l ih =>
      intro e
      simp only [List.map_cons, dotPow_cons, ih (e - 1)]
      ring

theorem dotPow_map_mul_left {n : ℕ} (c x : ZMod n) (f : ℕ → ZMod n) :
    ∀ (l : List ℕ) (e : ℕ),
      dotPow c (l.map fun j => x * f j) e = x * dotPow c (l.map f) e := by
  intro l
  induction l with
  | nil => intro e; simp [dotPow]
  | cons j l ih =>
      intro e
      simp only [List.map_cons, dotPow_cons, ih (e - 1)]
      ring

/-- The key polynomial identity behind `Prover.prove`: evaluating the
elementary symmetric polynomials of `L` against descending powers of `c`
(as the prover does with `Q[j] = g·c^j`) yields `∏_{x ∈ L} (x + c)`, up to
the offset power `c^e`. -/
theorem dotPow_coeffOf {n : ℕ} (c : ZMod n) :
    ∀ (L : List (ZMod n)) (e : ℕ),
      dotPow c ((List.range (L.length + 1)).map fun j => coeffOf j L)
        (L.length + e) = c ^ e * (L.map (· + c)).prod := by
  intro L
  induction L with
  | nil =>
      intro e
      have h1 : List.range 1 = [0] := rfl
      simp only [List.length_nil, Nat.zero_add, h1,
        List.map_cons, List.map_nil, List.prod_nil, mul_one]
      rw [dotPow_cons, dotPow_nil, coeffOf_zero]
      simp
  | cons x xs ih =>
      intro e
      have hlen : (x :: xs).length = xs.length + 1 := rfl
      rw [hlen]
      have hrange : List.range (xs.length + 1 + 1) =
          0 :: (List.range (xs.length + 1)).map Nat.succ :=
        List.range_succ_eq_map (xs.length + 1)
      rw [hrange, List.map_cons, List.map_map]
      have hcomp : ((fun j => coeffOf j (x :: xs)) ∘ Nat.succ) =
          fun j => x * coeffOf j xs + coeffOf (j + 1) xs := by
        funext j
        exact coeffOf_succ_cons j x xs
      rw [hcomp, dotPow_cons, coeffOf_zero, one_mul]
      have hsub : xs.length + 1 + e - 1 = xs.length + e := by omega
      rw [hsub, dotPow_map_add c (fun j => x * coeffOf j xs)
        (fun j => coeffOf (j + 1) xs), dotPow_map_mul_left, ih e]
      -- the shifted sum via the un-shifted sum one degree higher
      have hshift : dotPow c ((List.range (xs.length + 1)).map
            fun j => coeffOf (j + 1) xs) (xs.length + e) =
          c ^ (e + 1) * (xs.map (· + c)).prod - c ^ (xs.length + 1 + e) := by
        have htop : dotPow c ((List.range (xs.length + 1 + 1)).map
              fun j => coeffOf j xs) (xs.length + 1 + e) =
            c ^ (e + 1) * (xs.map (· + c)).prod := by
          have hr2 : List.range (xs.length + 1 + 1) =
              List.range (xs.length + 1) ++ [xs.length + 1] :=
            List.range_succ (xs.length + 1)
          rw [hr2, List.map_append, List.map_cons, List.map_nil,
            dotPow_concat, coeffOf_eq_zero xs (xs.length + 1) (by omega)]
          have harr : xs.length + 1 + e = xs.length + (e + 1) := by omega
          rw [harr, ih (e + 1)]
          simp
        have hr3 : List.range (xs.length + 1 + 1) =
            0 :: (List.range (xs.length + 1)).map Nat.succ :=
          List.range_succ_eq_map (xs.length + 1)
        rw [hr3, List.map_cons, List.map_map] at htop
        have hcomp2 : ((fun j => coeffOf j xs) ∘ Nat.succ) =
            fun j => coeffOf (j + 1) xs := rfl
        rw [hcomp2, dotPow_cons, coeffOf_zero, one_mul] at htop
        have hsub2 : xs.length + 1 + e - 1 = xs.length + e := by omega
        rw [hsub2] at htop
        have := htop
        linear_combination this
      rw [hshift, List.map_cons, List.prod_cons]
      ring


/-- Evaluation of the `v`/`w` loop of `Prover.prove` when every required
`Q[j]` is present and equals `c^j`. -/
theorem proveLoop_eval {n : ℕ} (Q : ℤ → Option (ZMod n)) (c : ZMod n) (k : ℕ)
    (hQ : ∀ j : ℕ, j ≤ k + 1 → Q (j : ℤ) = some (c ^ j)) :
    ∀ (coeffs : List (ZMod n)) (j₀ : ℕ) (v w : ZMod n),
      j₀ + coeffs.length = k + 1 →
      Prover.proveLoop Q (k : ℤ) j₀ coeffs (v, w) =
        some (v + dotPow c coeffs (k - j₀),
              w + dotPow c coeffs (k + 1 - j₀)) := by
  intro coeffs
  induction coeffs with
  | nil =>
      intro j₀ v w hlen
      simp [Prover.proveLoop, dotPow_nil]
  | cons a rest ih =>
      intro j₀ v w hlen
      have hj₀ : j₀ ≤ k := by
        simp only [List.length_cons] at hlen
        omega
      have hv : Q ((k : ℤ) - (j₀ : ℕ)) = some (c ^ (k - j₀)) := by
        have hcast : (k : ℤ) - (j₀ : ℕ) = ((k - j₀ : ℕ) : ℤ) := by
          rw [Nat.cast_sub hj₀]
        rw [hcast]
        exact hQ (k - j₀) (by omega)
      have hw : Q ((k : ℤ) - (j₀ : ℕ) + 1) = some (c ^ (k + 1 - j₀)) := by
        have hcast : (k : ℤ) - (j₀ : ℕ) + 1 = ((k + 1 - j₀ : ℕ) : ℤ) := by
          rw [Nat.cast_sub (by omega)]
          push_cast
          ring
        rw [hcast]
        exact hQ (k + 1 - j₀) (by omega)
      show (match Q ((k : ℤ) - (j₀ : ℕ)) with
        | none => none
        | some qv =>
            match Q ((k : ℤ) - (j₀ : ℕ) + 1) with
            | none => none
            | some qw =>
                Prover.proveLoop Q (k : ℤ) (j₀ + 1) rest (v + a * qv, w + a * qw)) = _
      rw [hv, hw]
      show Prover.proveLoop Q (k : ℤ) (j₀ + 1) rest
        (v + a * c ^ (k - j₀), w + a * c ^ (k + 1 - j₀)) = _
      rw [ih (j₀ + 1) _ _ (by simp only [List.length_cons] at hlen; omega)]
      rw [dotPow_cons, dotPow_cons]
      have h1 : k - j₀ - 1 = k - (j₀ + 1) := by omega
      have h2 : k + 1 - j₀ - 1 = k + 1 - (j₀ + 1) := by omega
      rw [h1, h2]
      congr 1
      refine Prod.ext ?_ ?_ <;> simp <;> ring

/-- With pairwise-distinct elements, the source's `filter(v => v !== e)`
removes exactly the one occurrence of `e`. -/
theorem filter_ne_eq_erase {n : ℕ} (l : List (ZMod n)) (e : ZMod n)
    (h : l.Nodup) : l.filter (fun v => v ≠ e) = l.erase e := by
  rw [h.erase_eq_filter e]
  apply List.filter_congr
  intro x _
  simp [bne, beq_eq_decide]

/-- Correctness of `Prover.prove` on a synchronised prover: with
`Q[j] = c^j` for `j ≤ |A|`, cursor `|A| - 1`, and pairwise-distinct
elements, proving a present element `d` yields
`v = Σ_j σ_j(A') · c^((|A|-1)-j) = ∏_{x ∈ A \ e}(x + c)` and `w = c·v`. -/
theorem prove_correct {n : ℕ} (mapH : Data → ZMod n) (c : ZMod n)
    (P : Prover n) (d : Data) (hnd : P.A.Nodup) (hmem : mapH d ∈ P.A)
    (hi : P.i = some ((P.A.length : ℤ) - 1))
    (hQ : ∀ j : ℕ, j ≤ P.A.length → P.Q (j : ℤ) = some (c ^ j)) :
    Prover.prove mapH P d =
      some ⟨d, ((P.A.erase (mapH d)).map (· + c)).prod,
            c * ((P.A.erase (mapH d)).map (· + c)).prod⟩ := by
  have hlen1 : 1 ≤ P.A.length :=
    List.length_pos.mpr (List.ne_nil_of_mem hmem)
  have hfil : P.A.filter (fun v => v ≠ mapH d) = P.A.erase (mapH d) :=
    filter_ne_eq_erase P.A (mapH d) hnd
  have hlenE : (P.A.erase (mapH d)).length = P.A.length - 1 :=
    List.length_erase_of_mem hmem
  have hcast : jsNum P.i = ((P.A.length - 1 : ℕ) : ℤ) := by
    rw [hi, jsNum_some, Nat.cast_sub hlen1]
    norm_num
  have htoNat : (((P.A.length - 1 : ℕ) : ℤ) + 1).toNat = P.A.length := by
    omega
  have hQ' : ∀ j : ℕ, j ≤ (P.A.length - 1) + 1 →
      P.Q (j : ℤ) = some (c ^ j) := by
    intro j hj
    exact hQ j (by omega)
  simp only [Prover.prove, hfil, hcast, htoNat]
  rw [proveLoop_eval P.Q c (P.A.length - 1) hQ'
    ((List.range P.A.length).map fun j =>
      coeffOf j (P.A.erase (mapH d))) 0 (infPoint n) (infPoint n)
    (by simp [List.length_map, List.length_range]; omega)]
  have hr : List.range P.A.length =
      List.range ((P.A.erase (mapH d)).length + 1) := by
    rw [hlenE]
    congr 1
    omega
  have hv := dotPow_coeffOf c (P.A.erase (mapH d)) 0
  have hw := dotPow_coeffOf c (P.A.erase (mapH d)) 1
  rw [hlenE] at hv hw
  simp only [Nat.sub_zero] at hv hw ⊢
  rw [hr, hlenE]
  have ha0 : P.A.length - 1 + 0 = P.A.length - 1 := by omega
  rw [ha0] at hv
  rw [hv, hw]
  simp [Option.map_some, infPoint_eq_zero]

theorem runSim_cons {n : ℕ} (mapH : Data → ZMod n) (st st₁ : SimState n)
    (op : Op n) (ops : List (Op n)) (hs : stepOp mapH st op = some st₁) :
    runSim mapH st (op :: ops) = runSim mapH st₁ ops := by
  simp [runSim, hs]

/-- Invariant preservation along a trace, from per-step preservation. -/
theorem runSim_invariant {n : ℕ} (mapH : Data → ZMod n)
    (addC delC : Multiset (ZMod n) → ZMod n → Prop) (I : SimState n → Prop)
    (hstep : ∀ st op st', I st → opCond mapH addC delC st op →
      stepOp mapH st op = some st' → I st') :
    ∀ (ops : List (Op n)) (st st' : SimState n), I st →
      TraceOK mapH addC delC st ops → runSim mapH st ops = some st' → I st' := by
  intro ops
  induction ops with
  | nil =>
      intro st st' h _ hr
      simp [runSim] at hr
      exact hr ▸ h
  | cons op ops ih =>
      intro st st' h ht hr
      cases ht with
      | cons _ _ st₁ _ hc hs ht' =>
          rw [runSim_cons mapH st st₁ op ops hs] at hr
          exact ih st₁ st' (hstep st op st₁ h hc hs) ht' hr

/-- `modInv` inverts every nonzero scalar modulo a prime. -/
theorem modInv_cancel {n : ℕ} [Fact (Nat.Prime n)] (x : ZMod n) (hx : x ≠ 0) :
    modInv x * x = 1 := by
  have h2 : 2 ≤ n := Nat.Prime.two_le (Fact.out)
  have : modInv x * x = x ^ (n - 1) := by
    rw [modInv, ← pow_succ]
    congr 1
    omega
  rw [this]
  exact ZMod.pow_card_sub_one_eq_one hx

theorem mul_modInv_cancel {n : ℕ} [Fact (Nat.Prime n)] (x : ZMod n)
    (hx : x ≠ 0) : x * modInv x = 1 := by
  rw [mul_comm]; exact modInv_cancel x hx

/-- Unfolding of `Accumulator.add`. -/
theorem Accumulator.add_eq {n : ℕ} (mapH : Data → ZMod n)
    (acc : Accumulator n) (d : Data) :
    Accumulator.add mapH acc d =
      ({ c := acc.c, z := (mapH d + acc.c) * acc.z,
         Q := if acc.Q = infPoint n then basePoint n else acc.c * acc.Q,
         i := nextIdx acc.i },
       ⟨d, (mapH d + acc.c) * acc.z, acc.z, acc.c * acc.z,
        acc.c * (if acc.Q = infPoint n then basePoint n else acc.c * acc.Q),
        nextIdx acc.i⟩) := rfl

/-- Characterisation of a successful `Accumulator.del`. -/
theorem Accumulator.del_eq_some {n : ℕ} (mapH : Data → ZMod n)
    (acc : Accumulator n) (wit : Witness n) (acc' : Accumulator n)
    (u : Update n) (h : Accumulator.del mapH acc wit = some (acc', u)) :
    mapH wit.d + acc.c ≠ 0 ∧
    acc'.c = acc.c ∧
    acc'.z = modInv (mapH wit.d + acc.c) * acc.z ∧
    acc'.Q = (if acc.Q = basePoint n then infPoint n
              else modInv acc.c * acc.Q) ∧
    acc'.i = (if acc.i = some 0 then none else some (jsNum acc.i - 1)) ∧
    u.d = wit.d ∧ u.z = acc'.z ∧ u.Q = acc.Q ∧ u.i = acc'.i := by
  simp only [Accumulator.del] at h
  split_ifs at h <;>
    first
      | exact Option.noConfusion h
      | · rw [Option.some_inj] at h
          have ha : acc' = _ := (congrArg Prod.fst h).symm
          have hu : u = _ := (congrArg Prod.snd h).symm
          subst ha
          subst hu
          refine ⟨by assumption, rfl, rfl, ?_, ?_, rfl, rfl, rfl, rfl⟩ <;>
            simp_all

/-- After any successful step the prover's `z` is the accumulator's current
commitment (both branches of `update` install the emitted `z`). -/
theorem stepOp_prov_z {n : ℕ} (mapH : Data → ZMod n) (st st' : SimState n)
    (op : Op n) (hs : stepOp mapH st op = some st') :
    st'.prov.z = some st'.acc.z := by
  cases op with
  | add d =>
      simp only [stepOp, Accumulator.add] at hs
      obtain ⟨rfl⟩ := Option.some_inj.mp hs
      rfl
  | del wit =>
      simp only [stepOp] at hs
      rcases hdel : Accumulator.del mapH st.acc wit with _ | ⟨acc', u⟩
      · rw [hdel] at hs; exact absurd hs (by simp)
      · rw [hdel] at hs
        obtain ⟨rfl⟩ := Option.some_inj.mp hs
        obtain ⟨-, -, -, -, -, -, huz, -, -⟩ :=
          Accumulator.del_eq_some mapH st.acc wit acc' u hdel
        simp only [SimState.prov, SimState.acc, Prover.update, huz]

/-- One step preserves the commitment invariant, provided a deletion's
mapped scalar is currently accumulated. -/
theorem stepOp_InvZ {n : ℕ} [Fact (Nat.Prime n)] (mapH : Data → ZMod n)
    (c : ZMod n) (st : SimState n) (op : Op n) (st' : SimState n)
    (hI : InvZ c st) (hc : opCond mapH anyOp delMem st op)
    (hs : stepOp mapH st op = some st') : InvZ c st' := by
  obtain ⟨hcc, hz⟩ := hI
  cases op with
  | add d =>
      simp only [stepOp, Accumulator.add_eq] at hs
      obtain ⟨rfl⟩ := Option.some_inj.mp hs
      refine ⟨hcc, ?_⟩
      simp only [SimState.acc, SimState.A, Multiset.map_cons, Multiset.prod_cons]
      rw [hz, hcc]
      ring
  | del wit =>
      simp only [stepOp] at hs
      rcases hdel : Accumulator.del mapH st.acc wit with _ | ⟨acc', u⟩
      · rw [hdel] at hs; exact Option.noConfusion hs
      · rw [hdel] at hs
        obtain ⟨rfl⟩ := Option.some_inj.mp hs
        obtain ⟨hne, hac, haz, -, -, -, -, -, -⟩ :=
          Accumulator.del_eq_some mapH st.acc wit acc' u hdel
        have hmem : mapH wit.d ∈ st.A := hc
        refine ⟨hac.trans hcc, ?_⟩
        simp only [SimState.acc, SimState.A]
        rw [haz, hz, hcc]
        have hprod : (mapH wit.d + c) *
            ((st.A.erase (mapH wit.d)).map (· + c)).prod =
            (st.A.map (· + c)).prod :=
          @Multiset.prod_map_erase (ZMod n) (ZMod n) _ st.A
            (fun x => x + c) _ (mapH wit.d) hmem
        rw [← hprod]
        have hne' : mapH wit.d + c ≠ 0 := by rw [← hcc]; exact hne
        rw [← mul_assoc, ← mul_assoc, modInv_cancel _ hne', one_mul]

/-- The commitment invariant holds along any successful trace whose
deletions remove currently-accumulated scalars. -/
theorem runSim_InvZ {n : ℕ} [Fact (Nat.Prime n)] (mapH : Data → ZMod n)
    (c : ZMod n) (ops : List (Op n)) (st st' : SimState n) (hI : InvZ c st)
    (ht : TraceOK mapH anyOp delMem st ops)
    (hr : runSim mapH st ops = some st') : InvZ c st' :=
  runSim_invariant mapH anyOp delMem (InvZ c)
    (fun s op s' h hcnd hstp => stepOp_InvZ mapH c s op s' h hcnd hstp)
    ops st st' hI ht hr

/-- Projections of `Prover.update`. -/
theorem Prover.update_Q {n : ℕ} (mapH : Data → ZMod n) (P : Prover n)
    (msg : Update n) (j : ℤ) :
    (Prover.update mapH P msg).Q j =
      if j = installIdx msg.i then some msg.Q else P.Q j := rfl

theorem Prover.update_i {n : ℕ} (mapH : Data → ZMod n) (P : Prover n)
    (msg : Update n) : (Prover.update mapH P msg).i = msg.i := rfl

theorem Prover.update_z {n : ℕ} (mapH : Data → ZMod n) (P : Prover n)
    (msg : Update n) : (Prover.update mapH P msg).z = some msg.z := rfl

theorem nextIdx_none : nextIdx none = some 0 := rfl

theorem nextIdx_some (t : ℤ) : nextIdx (some t) = some (t + 1) := rfl

theorem installIdx_none : installIdx none = 1 := rfl

theorem installIdx_some (t : ℤ) : installIdx (some t) = t + 1 := rfl

/-- One step preserves the auxiliary-point/cursor and prover-tracking
invariant, provided deletions remove accumulated scalars and the secret is
not of small order relative to the count. -/
theorem stepOp_InvPQ {n : ℕ} [Fact (Nat.Prime n)] (mapH : Data → ZMod n)
    (c : ZMod n) (hc0 : c ≠ 0) (st : SimState n) (op : Op n)
    (st' : SimState n) (hI : InvPQ c st)
    (hcnd : opCond mapH anyOp (delMemOrd c) st op)
    (hs : stepOp mapH st op = some st') : InvPQ c st' := by
  obtain ⟨hcc, hqi, hpi, hpQ, hpz⟩ := hI
  cases op with
  | add d =>
      simp only [stepOp, Accumulator.add_eq] at hs
      obtain ⟨rfl⟩ := Option.some_inj.mp hs
      refine ⟨hcc, ?_, rfl, ?_, Or.inr rfl⟩
      · -- the accumulator-side (Q, i) relation
        rcases hqi with ⟨hA0, hi0, hQ0⟩ | ⟨hAne, hiv, hQv⟩
        · refine Or.inr ⟨Multiset.cons_ne_zero, ?_, ?_⟩
          · show nextIdx st.acc.i = _
            rw [hi0, nextIdx_none, hA0]
            norm_num
          · show (if st.acc.Q = infPoint n then basePoint n
                  else st.acc.c * st.acc.Q) = _
            rw [if_pos hQ0, hA0]
            norm_num [basePoint_eq_one]
        · have hk1 : 1 ≤ Multiset.card st.A := Multiset.card_pos.mpr hAne
          have hQne : st.acc.Q ≠ infPoint n := by
            rw [hQv, basePoint_eq_one, infPoint_eq_zero, mul_one]
            exact pow_ne_zero _ hc0
          refine Or.inr ⟨Multiset.cons_ne_zero, ?_, ?_⟩
          · show nextIdx st.acc.i = _
            rw [hiv, nextIdx_some, Multiset.card_cons]
            congr 1
            push_cast
            ring
          · show (if st.acc.Q = infPoint n then basePoint n
                  else st.acc.c * st.acc.Q) = _
            rw [if_neg hQne, hQv, hcc, Multiset.card_cons, basePoint_eq_one,
                mul_one, mul_one, ← pow_succ']
            congr 1
            omega
      · -- the prover's stored points
        intro j hj
        show (Prover.update mapH st.prov _).Q _ = _
        rw [Prover.update_Q]
        rcases hqi with ⟨hA0, hi0, hQ0⟩ | ⟨hAne, hiv, hQv⟩
        · rw [hA0] at hj
          simp only [Multiset.card_cons, Multiset.card_zero, Nat.zero_add] at hj
          simp only [WitnessUpdate.toUpdate, hi0, nextIdx_none,
            installIdx_some, if_pos hQ0]
          interval_cases j
          · rw [if_neg (by norm_num)]
            exact hpQ 0 (Nat.zero_le _)
          · rw [if_pos (by norm_num)]
            rw [hcc, basePoint_eq_one]
            norm_num
        · have hk1 : 1 ≤ Multiset.card st.A := Multiset.card_pos.mpr hAne
          have hQne : st.acc.Q ≠ infPoint n := by
            rw [hQv, basePoint_eq_one, infPoint_eq_zero, mul_one]
            exact pow_ne_zero _ hc0
          simp only [WitnessUpdate.toUpdate, hiv, nextIdx_some,
            installIdx_some, if_neg hQne]
          simp only [Multiset.card_cons] at hj
          rcases Nat.lt_or_ge j (Multiset.card st.A + 1) with hlt | hge
          · rw [if_neg (by omega)]
            exact hpQ j (by omega)
          · have hje : j = Multiset.card st.A + 1 := by omega
            subst hje
            rw [if_pos (by push_cast; ring)]
            rw [hQv, hcc, basePoint_eq_one, mul_one, mul_one]
            rw [← pow_succ', ← pow_succ']
            congr 2
            omega
  | del wit =>
      simp only [stepOp] at hs
      rcases hdel : Accumulator.del mapH st.acc wit with _ | ⟨acc', u⟩
      · rw [hdel] at hs; exact Option.noConfusion hs
      · rw [hdel] at hs
        obtain ⟨rfl⟩ := Option.some_inj.mp hs
        obtain ⟨hne, hac, haz, haQ, hai, hud, huz, huQ, hui⟩ :=
          Accumulator.del_eq_some mapH st.acc wit acc' u hdel
        obtain ⟨hmem, hord⟩ := hcnd
        rcases hqi with ⟨hA0, -, -⟩ | ⟨hAne, hiv, hQv⟩
        · rw [hA0] at hmem
          exact absurd hmem (Multiset.not_mem_zero _)
        have hk1 : 1 ≤ Multiset.card st.A := Multiset.card_pos.mpr hAne
        have hcard : Multiset.card (st.A.erase (mapH wit.d)) =
            Multiset.card st.A - 1 := Multiset.card_erase_of_mem hmem
        refine ⟨hac.trans hcc, ?_, ?_, ?_, Or.inr ?_⟩
        · -- the accumulator-side (Q, i) relation
          rcases Nat.lt_or_ge (Multiset.card st.A) 2 with hklt | hkge
          · have hk : Multiset.card st.A = 1 := by omega
            have hQg : st.acc.Q = basePoint n := by
              rw [hQv, hk, basePoint_eq_one]
              norm_num
            have hig : st.acc.i = some 0 := by
              rw [hiv, hk]
              norm_num
            have hE0 : st.A.erase (mapH wit.d) = 0 := by
              rw [← Multiset.card_eq_zero, hcard, hk]
            refine Or.inl ⟨hE0, ?_, ?_⟩
            · show acc'.i = none
              rw [hai, if_pos hig]
            · show acc'.Q = infPoint n
              rw [haQ, if_pos hQg]
          · have hQne : st.acc.Q ≠ basePoint n := by
              rw [hQv, basePoint_eq_one, mul_one]
              exact hord hkge
            have hine : st.acc.i ≠ some 0 := by
              rw [hiv]
              intro h
              have h' := Option.some_inj.mp h
              have : (Multiset.card st.A : ℤ) = 1 := by omega
              omega
            have hEne : st.A.erase (mapH wit.d) ≠ 0 := by
              rw [Ne, ← Multiset.card_eq_zero, hcard]
              omega
            refine Or.inr ⟨hEne, ?_, ?_⟩
            · show acc'.i = _
              rw [hai, if_neg hine, hiv, jsNum_some, hcard]
              congr 1
              push_cast [hk1]
              ring
            · show acc'.Q = _
              rw [haQ, if_neg hQne, hQv, hcard, hcc, basePoint_eq_one,
                  mul_one, mul_one]
              have hsplit : c ^ (Multiset.card st.A - 1) =
                  c * c ^ (Multiset.card st.A - 1 - 1) := by
                rw [← pow_succ']
                congr 1
                omega
              rw [hsplit, ← mul_assoc, modInv_cancel c hc0, one_mul]
        · show (Prover.update mapH st.prov u).i = acc'.i
          rw [Prover.update_i, hui]
        · -- the prover's stored points
          intro j hj
          show (Prover.update mapH st.prov u).Q _ = _
          rw [Prover.update_Q, hui, hai]
          rw [hcard] at hj
          rcases Nat.lt_or_ge (Multiset.card st.A) 2 with hklt | hkge
          · have hk : Multiset.card st.A = 1 := by omega
            have hig : st.acc.i = some 0 := by
              rw [hiv, hk]
              norm_num
            rw [if_pos hig, installIdx_none]
            have hj0 : j = 0 := by omega
            subst hj0
            rw [if_neg (by norm_num)]
            exact hpQ 0 (by omega)
          · have hine : st.acc.i ≠ some 0 := by
              rw [hiv]
              intro h
              have h' := Option.some_inj.mp h
              omega
            rw [if_neg hine, hiv, jsNum_some, installIdx_some]
            rcases Nat.lt_or_ge j (Multiset.card st.A - 1) with hlt | hge
            · rw [if_neg (by omega)]
              exact hpQ j (by omega)
            · have hje : j = Multiset.card st.A - 1 := by omega
              subst hje
              rw [if_pos (by push_cast [hk1]; ring)]
              rw [huQ, hQv]
        · show (Prover.update mapH st.prov u).z = some acc'.z
          rw [Prover.update_z, huz]

/-- The auxiliary-point/cursor and prover-tracking invariant holds along any
successful trace with honest deletions and a secret of large order. -/
theorem runSim_InvPQ {n : ℕ} [Fact (Nat.Prime n)] (mapH : Data → ZMod n)
    (c : ZMod n) (hc0 : c ≠ 0) (ops : List (Op n)) (st st' : SimState n)
    (hI : InvPQ c st) (ht : TraceOK mapH anyOp (delMemOrd c) st ops)
    (hr : runSim mapH st ops = some st') : InvPQ c st' :=
  runSim_invariant mapH anyOp (delMemOrd c) (InvPQ c)
    (fun s op s' h hcnd hstp => stepOp_InvPQ mapH c hc0 s op s' h hcnd hstp)
    ops st st' hI ht hr

theorem Prover.update_A {n : ℕ} (mapH : Data → ZMod n) (P : Prover n)
    (msg : Update n) :
    (Prover.update mapH P msg).A =
      if isDeletion msg.i P.i then P.A.filter (fun v => v ≠ mapH msg.d)
      else P.A ++ [mapH msg.d] := rfl

/-- One step preserves the full simulation invariant, provided additions are
of fresh scalars and deletions remove accumulated scalars (secret of large
order). -/
theorem stepOp_InvFull {n : ℕ} [Fact (Nat.Prime n)] (mapH : Data → ZMod n)
    (c : ZMod n) (hc0 : c ≠ 0) (st : SimState n) (op : Op n)
    (st' : SimState n) (hI : InvFull c st)
    (hcnd : opCond mapH addFresh (delMemOrd c) st op)
    (hs : stepOp mapH st op = some st') : InvFull c st' := by
  obtain ⟨hz, hpq, hlist, hnd⟩ := hI
  obtain ⟨hcc, hqi, hpi, hpQ, hpz⟩ := hpq
  have hcndZ : opCond mapH anyOp delMem st op := by
    cases op with
    | add d => exact trivial
    | del wit => exact hcnd.1
  have hcndPQ : opCond mapH anyOp (delMemOrd c) st op := by
    cases op with
    | add d => exact trivial
    | del wit => exact hcnd
  refine ⟨stepOp_InvZ mapH c st op st' hz hcndZ hs,
    stepOp_InvPQ mapH c hc0 st op st' ⟨hcc, hqi, hpi, hpQ, hpz⟩ hcndPQ hs,
    ?_, ?_⟩
  · -- multiset of the prover's list
    cases op with
    | add d =>
        simp only [stepOp, Accumulator.add_eq] at hs
        obtain ⟨rfl⟩ := Option.some_inj.mp hs
        have hnodel : isDeletion (nextIdx st.acc.i) st.prov.i = false := by
          rcases hqi with ⟨-, hi0, -⟩ | ⟨-, hiv, -⟩
          · rw [hi0, hpi, hi0, nextIdx_none]
            rfl
          · rw [hiv, hpi, hiv, nextIdx_some, isDeletion]
            simp only [jsNum_some, decide_eq_false_iff_not, not_lt]
            omega
        show ((Prover.update mapH st.prov _).A : Multiset (ZMod n)) = _
        rw [Prover.update_A]
        simp only [WitnessUpdate.toUpdate, hnodel, Bool.false_eq_true,
          if_false]
        rw [← Multiset.coe_add, hlist, add_comm]
        simp
    | del wit =>
        simp only [stepOp] at hs
        rcases hdel : Accumulator.del mapH st.acc wit with _ | ⟨acc', u⟩
        · rw [hdel] at hs; exact Option.noConfusion hs
        rw [hdel] at hs
        obtain ⟨rfl⟩ := Option.some_inj.mp hs
        obtain ⟨hne, hac, haz, haQ, hai, hud, huz, huQ, hui⟩ :=
          Accumulator.del_eq_some mapH st.acc wit acc' u hdel
        obtain ⟨hmem, hord⟩ := hcnd
        rcases hqi with ⟨hA0, -, -⟩ | ⟨hAne, hiv, hQv⟩
        · rw [hA0] at hmem
          exact absurd hmem (Multiset.not_mem_zero _)
        have hk1 : 1 ≤ Multiset.card st.A := Multiset.card_pos.mpr hAne
        have hdeln : isDeletion u.i st.prov.i = true := by
          rw [hui, hai, hpi, hiv]
          rcases Nat.lt_or_ge (Multiset.card st.A) 2 with hklt | hkge
          · have hk : Multiset.card st.A = 1 := by omega
            rw [if_pos (by rw [hk]; norm_num)]
            rfl
          · rw [if_neg (by intro h; have hcontr := Option.some_inj.mp h; omega)]
            rw [jsNum_some, isDeletion]
            simp only [jsNum_some, decide_eq_true_eq]
            omega
        show ((Prover.update mapH st.prov _).A : Multiset (ZMod n)) = _
        rw [Prover.update_A, hdeln, if_pos rfl, hud]
        have hfe : (List.filter (fun v => v ≠ mapH wit.d) st.prov.A :
            Multiset (ZMod n)) =
            Multiset.filter (fun v => v ≠ mapH wit.d)
              (st.prov.A : Multiset (ZMod n)) :=
          (Multiset.filter_coe _ _).symm
        rw [hfe, hlist,
          ← Multiset.Nodup.erase_eq_filter (mapH wit.d) hnd]
  · -- no duplicates
    cases op with
    | add d =>
        simp only [stepOp, Accumulator.add_eq] at hs
        obtain ⟨rfl⟩ := Option.some_inj.mp hs
        show Multiset.Nodup (mapH d ::ₘ st.A)
        exact Multiset.nodup_cons.mpr ⟨hcnd, hnd⟩
    | del wit =>
        simp only [stepOp] at hs
        rcases hdel : Accumulator.del mapH st.acc wit with _ | ⟨acc', u⟩
        · rw [hdel] at hs; exact Option.noConfusion hs
        rw [hdel] at hs
        obtain ⟨rfl⟩ := Option.some_inj.mp hs
        show Multiset.Nodup (st.A.erase (mapH wit.d))
        exact Multiset.Nodup.erase (mapH wit.d) hnd

/-- The full simulation invariant holds along any successful trace with
fresh additions and honest deletions (secret of large order). -/
theorem runSim_InvFull {n : ℕ} [Fact (Nat.Prime n)] (mapH : Data → ZMod n)
    (c : ZMod n) (hc0 : c ≠ 0) (ops : List (Op n)) (st st' : SimState n)
    (hI : InvFull c st) (ht : TraceOK mapH addFresh (delMemOrd c) st ops)
    (hr : runSim mapH st ops = some st') : InvFull c st' :=
  runSim_invariant mapH addFresh (delMemOrd c) (InvFull c)
    (fun s op s' h hcnd hstp => stepOp_InvFull mapH c hc0 s op s' h hcnd hstp)
    ops st st' hI ht hr

/-- All invariants hold in the initial state. -/
theorem initState_InvZ {n : ℕ} (c : ZMod n) : InvZ c (initState n c) := by
  refine ⟨rfl, ?_⟩
  simp [initState, Accumulator.new, SimState.acc, SimState.A]

theorem initState_InvPQ {n : ℕ} (c : ZMod n) : InvPQ c (initState n c) := by
  refine ⟨rfl, Or.inl ⟨rfl, rfl, rfl⟩, rfl, ?_, Or.inl ⟨rfl, rfl⟩⟩
  intro j hj
  simp only [initState, SimState.A, Multiset.card_zero, Nat.le_zero] at hj
  subst hj
  simp [initState, Prover.new, SimState.prov]

theorem initState_InvFull {n : ℕ} (c : ZMod n) : InvFull c (initState n c) :=
  ⟨initState_InvZ c, initState_InvPQ c, rfl, Multiset.nodup_zero⟩

/-- After a nonempty successful trace the prover's `z` is the accumulator's
commitment. -/
theorem runSim_prov_z {n : ℕ} (mapH : Data → ZMod n) :
    ∀ (ops : List (Op n)) (st st' : SimState n), ops ≠ [] →
      runSim mapH st ops = some st' → st'.prov.z = some st'.acc.z := by
  intro ops
  induction ops with
  | nil => intro st st' hne _; exact absurd rfl hne
  | cons op ops ih =>
      intro st st' _ hr
      rcases hstep : stepOp mapH st op with _ | st₁
      · rw [runSim, hstep] at hr; exact absurd hr (by simp)
      · rw [runSim_cons mapH st st₁ op ops hstep] at hr
        rcases ops with _ | ⟨op₂, ops⟩
        · simp [runSim] at hr
          exact hr ▸ stepOp_prov_z mapH st st₁ op hstep
        · exact ih st₁ st' (by simp) hr

/-! ## The claims -/

/-- Accumulator-side verification succeeds on a witness satisfying the
multiplicative equation. -/
theorem verify_of_eq {n : ℕ} (mapH : Data → ZMod n) (acc : Accumulator n)
    (wit : Witness n) (h : acc.z = (mapH wit.d + acc.c) * wit.v) :
    Accumulator.verify mapH acc wit = true := by
  simp only [Accumulator.verify]
  exact decide_eq_true h

/-- C1.  Commitment soundness: after any finite sequence of successful
`add`/`del` operations in which every deletion removes a currently
accumulated scalar, the commitment satisfies
`z = g · ∏_{e ∈ A} ((e + c) mod n)` where `A` is the multiset of mapped
scalars currently accumulated. -/
theorem C1_commitment_soundness {n : ℕ} [Fact (Nat.Prime n)]
    (mapH : Data → ZMod n) (c : ZMod n) (ops : List (Op n)) (st : SimState n)
    (ht : TraceOK mapH anyOp delMem (initState n c) ops)
    (hr : runSim mapH (initState n c) ops = some st) :
    st.acc.z = (st.A.map (· + c)).prod * basePoint n :=
  (runSim_InvZ mapH c ops (initState n c) st (initState_InvZ c) ht hr).2

/-- Witness for C1: on the trace `add(1); del(1)` over `Z_5` with secret
`c = 2`, every hypothesis holds concretely and the final commitment is
`g · ∏_{e ∈ ∅}(e + c) = g`. -/
theorem C1_commitment_soundness_witness :
    Nat.Prime 5 ∧
    TraceOK mapW5 anyOp delMem (initState 5 2) opsC1 ∧
    runSim mapW5 (initState 5 2) opsC1 = some stC1 ∧
    stC1.acc.z = (stC1.A.map (· + 2)).prod * basePoint 5 := by
  have hp : Nat.Prime 5 := by norm_num
  have ht : TraceOK mapW5 anyOp delMem (initState 5 2) opsC1 := by
    refine TraceOK.cons _ _ _ _ ?_ rfl
      (TraceOK.cons _ _ _ _ ?_ rfl (TraceOK.nil _))
    · exact trivial
    · show mapW5 1 ∈ _
      decide
  exact ⟨hp, ht, rfl,
    @C1_commitment_soundness 5 ⟨hp⟩ mapW5 2 opsC1 stC1 ht rfl⟩

/-- C3.  The deletion precondition is NOT enforced: in the source,
`Accumulator.del` runs `assert(this.verify({d, v, w}))` where `verify` is
`async`, so the assert receives a Promise — which is always truthy — and
never throws.  A `del` with a witness that fails verification therefore
proceeds and mutates the state (here it even drives the cursor to `-1` on
an empty accumulator) instead of surfacing `NotAMember` and leaving the
state unchanged. -/
theorem C3_del_skips_failed_verify :
    Accumulator.verify mapW5 accC3 witC3 = false ∧
    Accumulator.del mapW5 accC3 witC3 = some (accC3', updC3) ∧
    accC3' ≠ accC3 :=
  ⟨by decide, by decide, by decide⟩

/-- C4.  `Accumulator.verify({d, v, w})` returns true iff
`v · ((e + c) mod n) = z` with `e = map(H, d)`, and the result does not
depend on the `w` component. -/
theorem C4_verify_iff {n : ℕ} (mapH : Data → ZMod n) (acc : Accumulator n)
    (d : Data) (v w w' : ZMod n) :
    (Accumulator.verify mapH acc ⟨d, v, w⟩ = true ↔
      acc.z = (mapH d + acc.c) * v) ∧
    Accumulator.verify mapH acc ⟨d, v, w⟩ =
      Accumulator.verify mapH acc ⟨d, v, w'⟩ :=
  ⟨by simp [Accumulator.verify], rfl⟩

/-- C10 (counterexample).  A fresh `Prover` does NOT return the
`{v = O, w = O}` witness: `prove` coerces the `null` cursor to `0`, reads
`Q[1]`, which a fresh prover has never populated (`Q = [g]`), and throws a
`TypeError` (modelled as `none`). -/
theorem C10_fresh_prover_cex :
    Prover.prove mapW5 (Prover.new 5) 0 = none ∧
    Prover.prove mapW5 (Prover.new 5) 0 ≠
      some ⟨0, infPoint 5, infPoint 5⟩ :=
  ⟨rfl, by decide⟩

/-- C10 (amended).  `Prover.prove` on a fresh prover always fails with an
error: the loop body reads the absent `Q[1]` (``this.Q[this.i - i + 1]``
with the `null` cursor coerced to `0`) and the method call on `undefined`
throws. -/
theorem C10_fresh_prover_prove_fails {n : ℕ} (mapH : Data → ZMod n)
    (d : Data) : Prover.prove mapH (Prover.new n) d = none := rfl

/-- C5 (counterexample).  The auxiliary-point invariant as claimed
(`Q = g · c^k`) fails already after one `add`: the reachable state after
`add(1)` over `Z_5` with `c = 2` has one accumulated scalar but stores
`Q = g` (i.e. `g · c^0`), not `g · c^1`. -/
theorem C5_aux_invariant_cex :
    TraceOK mapW5 anyOp (delMemOrd 2) (initState 5 2) opsC5 ∧
    runSim mapW5 (initState 5 2) opsC5 = some stC5 ∧
    Multiset.card stC5.A = 1 ∧
    stC5.acc.Q ≠ (2 : ZMod 5) ^ Multiset.card stC5.A * basePoint 5 := by
  have ht : TraceOK mapW5 anyOp (delMemOrd 2) (initState 5 2) opsC5 := by
    refine TraceOK.cons _ _ _ _ ?_ rfl (TraceOK.nil _)
    exact trivial
  exact ⟨ht, rfl, by decide, by decide⟩

/-- C5 (amended).  In every state reached by a successful trace with honest
deletions and a nonzero secret not of small order, `k = 0` gives `Q = O`
and `i = ⊥`, and `k > 0` gives `i = k - 1` and `Q = g · c^(k-1)` (the
stored power is `c^(k-1)`, not `c^k` as claimed). -/
theorem C5_aux_invariant {n : ℕ} [Fact (Nat.Prime n)]
    (mapH : Data → ZMod n) (c : ZMod n) (hc0 : c ≠ 0) (ops : List (Op n))
    (st : SimState n)
    (ht : TraceOK mapH anyOp (delMemOrd c) (initState n c) ops)
    (hr : runSim mapH (initState n c) ops = some st) :
    (st.A = 0 → st.acc.Q = infPoint n ∧ st.acc.i = none) ∧
    (st.A ≠ 0 → st.acc.i = some ((Multiset.card st.A : ℤ) - 1) ∧
      st.acc.Q = c ^ (Multiset.card st.A - 1) * basePoint n) := by
  obtain ⟨-, hqi, -, -, -⟩ :=
    runSim_InvPQ mapH c hc0 ops _ st (initState_InvPQ c) ht hr
  constructor
  · intro h0
    rcases hqi with ⟨-, hi, hQ⟩ | ⟨hne, -, -⟩
    · exact ⟨hQ, hi⟩
    · exact absurd h0 hne
  · intro hne
    rcases hqi with ⟨h0, -, -⟩ | ⟨-, hi, hQ⟩
    · exact absurd h0 hne
    · exact ⟨hi, hQ⟩

/-- Witness for C5 (amended): after `add(1); add(2)` over `Z_5` with
`c = 2`, the state has `k = 2`, `i = 1`, `Q = g · c`. -/
theorem C5_aux_invariant_witness :
    Nat.Prime 5 ∧ (2 : ZMod 5) ≠ 0 ∧
    TraceOK mapW5 anyOp (delMemOrd 2) (initState 5 2) opsC5w ∧
    runSim mapW5 (initState 5 2) opsC5w = some stC5w ∧
    (stC5w.A ≠ 0 → stC5w.acc.i = some ((Multiset.card stC5w.A : ℤ) - 1) ∧
      stC5w.acc.Q =
        (2 : ZMod 5) ^ (Multiset.card stC5w.A - 1) * basePoint 5) := by
  have hp : Nat.Prime 5 := by norm_num
  have ht : TraceOK mapW5 anyOp (delMemOrd 2) (initState 5 2) opsC5w := by
    refine TraceOK.cons _ _ _ _ ?_ rfl
      (TraceOK.cons _ _ _ _ ?_ rfl (TraceOK.nil _)) <;> exact trivial
  have h2 : (2 : ZMod 5) ≠ 0 := by decide
  exact ⟨hp, h2, ht, rfl,
    (@C5_aux_invariant 5 ⟨hp⟩ mapW5 2 h2 opsC5w stC5w ht rfl).2⟩

/-- C6 (counterexample).  The witness produced by `Accumulator.prove` does
NOT satisfy the additive (Prover-side) equation `v · e + w = z`: over `Z_5`
with `c = 1`, `z = g` and `e = 1`, `prove` returns `v = 3·g`, `w = g`, which
passes the accumulator's multiplicative check but has
`v · e + w = 4·g ≠ g = z`, so the Prover-side verifier rejects it. -/
theorem C6_accumulator_prove_cex :
    Accumulator.prove mapW5 accC6 1 = some witC6 ∧
    Accumulator.verify mapW5 accC6 witC6 = true ∧
    mapW5 1 * witC6.v + witC6.w ≠ accC6.z ∧
    Prover.verify mapW5 provC6 witC6 = some false :=
  ⟨by decide, by decide, by decide, by decide⟩

/-- C6 (amended).  For `e = map(H, d)` with `e ≠ 0` and `e + c ≢ 0`,
`Accumulator.prove(d)` returns `v = z · ((e + c) mod n)^{-1}`,
`w = z · e^{-1}`, and this witness satisfies the accumulator-side equation
`v · (e + c) = z`.  (It does not, in general, satisfy `v · e + w = z`; see
the counterexample.) -/
theorem C6_accumulator_prove_spec {n : ℕ} [Fact (Nat.Prime n)]
    (mapH : Data → ZMod n) (acc : Accumulator n) (d : Data)
    (hec : mapH d + acc.c ≠ 0) (he : mapH d ≠ 0) :
    Accumulator.prove mapH acc d =
      some ⟨d, modInv (mapH d + acc.c) * acc.z, modInv (mapH d) * acc.z⟩ ∧
    Accumulator.verify mapH acc
      ⟨d, modInv (mapH d + acc.c) * acc.z, modInv (mapH d) * acc.z⟩ =
      true := by
  constructor
  · simp only [Accumulator.prove, if_neg hec, if_neg he]
  · apply verify_of_eq
    show acc.z = (mapH d + acc.c) * (modInv (mapH d + acc.c) * acc.z)
    rw [← mul_assoc, mul_modInv_cancel _ hec, one_mul]

/-- Witness for C6 (amended) at `n = 5`, `c = 1`, `d = 1`. -/
theorem C6_accumulator_prove_spec_witness :
    Nat.Prime 5 ∧ mapW5 1 + accC6.c ≠ 0 ∧ mapW5 1 ≠ 0 ∧
    (Accumulator.prove mapW5 accC6 1 =
      some ⟨1, modInv (mapW5 1 + accC6.c) * accC6.z,
            modInv (mapW5 1) * accC6.z⟩ ∧
     Accumulator.verify mapW5 accC6
      ⟨1, modInv (mapW5 1 + accC6.c) * accC6.z,
       modInv (mapW5 1) * accC6.z⟩ = true) := by
  have hp : Nat.Prime 5 := by norm_num
  have hec : mapW5 1 + accC6.c ≠ 0 := by decide
  have he : mapW5 1 ≠ 0 := by decide
  exact ⟨hp, hec, he,
    @C6_accumulator_prove_spec 5 ⟨hp⟩ mapW5 accC6 1 hec he⟩

/-- C9 (counterexample).  When the deleted scalar occurs `m = 2` times in
the prover's multiset, `update` removes BOTH occurrences
(`filter(v => v !== e)`), leaving `0` occurrences rather than `m - 1 = 1`. -/
theorem C9_prover_deletion_cex :
    provC9.A.count (mapW5 3) = 2 ∧
    (Prover.update mapW5 provC9 msgC9).A.count (mapW5 3) = 0 ∧
    (Prover.update mapW5 provC9 msgC9).A.count (mapW5 3) ≠ 2 - 1 :=
  ⟨by decide, by decide, by decide⟩

/-- C9 (amended).  On a deletion message (`msg.i = ⊥` or `msg.i < self.i`)
for data `d` with `e = map(H, msg.d)`, `Prover.update` removes EVERY
occurrence of `e` from `A` (so `e` occurs `0` times afterwards, not
`m - 1`), and leaves the multiplicity of every other scalar unchanged. -/
theorem C9_prover_deletion_removes_all {n : ℕ} (mapH : Data → ZMod n)
    (P : Prover n) (msg : Update n)
    (hdel : msg.i = none ∨ ∃ mi, msg.i = some mi ∧ mi < jsNum P.i) :
    (Prover.update mapH P msg).A =
      P.A.filter (fun v => v ≠ mapH msg.d) ∧
    (Prover.update mapH P msg).A.count (mapH msg.d) = 0 ∧
    ∀ x : ZMod n, x ≠ mapH msg.d →
      (Prover.update mapH P msg).A.count x = P.A.count x := by
  have hd : isDeletion msg.i P.i = true := by
    rcases hdel with h | ⟨mi, hmi, hlt⟩
    · rw [h]; rfl
    · rw [hmi, isDeletion]
      exact decide_eq_true hlt
  have hA : (Prover.update mapH P msg).A =
      P.A.filter (fun v => v ≠ mapH msg.d) := by
    rw [Prover.update_A, hd, if_pos rfl]
  refine ⟨hA, ?_, ?_⟩
  · rw [hA, List.count_eq_zero]
    intro hmem
    have hpa := List.of_mem_filter hmem
    simp at hpa
  · intro x hx
    rw [hA]
    apply List.count_filter
    simp [hx]

/-- Witness for C9 (amended): the deletion message `msgC9` (with
`msg.i = ⊥`) empties the multiplicity of `e = 3` and preserves that of
`2`. -/
theorem C9_prover_deletion_removes_all_witness :
    (msgC9.i = none ∨ ∃ mi, msgC9.i = some mi ∧ mi < jsNum provC9.i) ∧
    (Prover.update mapW5 provC9 msgC9).A =
      provC9.A.filter (fun v => v ≠ mapW5 msgC9.d) ∧
    (Prover.update mapW5 provC9 msgC9).A.count (mapW5 msgC9.d) = 0 ∧
    (Prover.update mapW5 provC9 msgC9).A.count 2 = provC9.A.count 2 := by
  have h := C9_prover_deletion_removes_all mapW5 provC9 msgC9 (Or.inl rfl)
  exact ⟨Or.inl rfl, h.1, h.2.1, h.2.2 2 (by decide)⟩

/-- C7 (counterexample).  The add/del round trip does NOT always restore
the state: over `Z_5` with the legal secret `c = 4` (mirroring
`c = n - 1` on a real curve), from the reachable state after
`add(0); add(2)` — where `Q = g·c` — a further `add(3)` (with
`e + c = 2 ≢ 0`) makes the stored `Q` equal to `g`, so the subsequent `del`
takes the `Q = g` branch and resets `Q` to `O` instead of `g·c`. -/
theorem C7_roundtrip_cex :
    TraceOK mapW5 anyOp (delMemOrd 4) (initState 5 4) opsC7 ∧
    runSim mapW5 (initState 5 4) opsC7 = some stC7 ∧
    mapW5 3 + stC7.acc.c ≠ 0 ∧
    (Accumulator.del mapW5 (Accumulator.add mapW5 stC7.acc 3).1
        (Accumulator.add mapW5 stC7.acc 3).2.toWitness).map Prod.fst ≠
      some stC7.acc := by
  have ht : TraceOK mapW5 anyOp (delMemOrd 4) (initState 5 4) opsC7 := by
    refine TraceOK.cons _ _ _ _ ?_ rfl
      (TraceOK.cons _ _ _ _ ?_ rfl (TraceOK.nil _)) <;> exact trivial
  exact ⟨ht, rfl, by decide, by decide⟩

/-- C7 (amended).  `add(d)` followed by `del` on the returned record
restores `(z, Q, i)` (indeed the whole state), provided additionally that
the secret is nonzero, the cursor is not a negative number, and the
post-add auxiliary point `c · Q` does not collide with `g` when `Q ≠ O`
(which excludes secrets of small multiplicative order; the counterexample
shows the restriction is necessary). -/
theorem C7_roundtrip {n : ℕ} [Fact (Nat.Prime n)] (mapH : Data → ZMod n)
    (acc : Accumulator n) (d : Data) (hc0 : acc.c ≠ 0)
    (hec : mapH d + acc.c ≠ 0)
    (hi : ∀ t : ℤ, acc.i = some t → 0 ≤ t)
    (hQ : acc.Q ≠ infPoint n → acc.c * acc.Q ≠ basePoint n) :
    (Accumulator.del mapH (Accumulator.add mapH acc d).1
      (Accumulator.add mapH acc d).2.toWitness).map Prod.fst = some acc := by
  obtain ⟨ac, az, aQ, ai⟩ := acc
  dsimp only at hc0 hec hi hQ
  rw [Accumulator.add_eq]
  dsimp only
  simp only [WitnessUpdate.toWitness]
  rw [Accumulator.del]
  dsimp only
  rw [if_neg hec, if_neg (fun h => hc0 h.2)]
  simp only [Option.map_some', Option.some_inj, Accumulator.mk.injEq,
    true_and]
  refine ⟨?_, ?_, ?_⟩
  · rw [← mul_assoc, modInv_cancel _ hec, one_mul]
  · by_cases haQ : aQ = infPoint n
    · simp only [if_pos haQ, if_pos rfl]
      exact haQ.symm
    · simp only [if_neg haQ, if_neg (hQ haQ)]
      rw [← mul_assoc, modInv_cancel _ hc0, one_mul]
  · cases ai with
    | none =>
        rw [show nextIdx none = some 0 from rfl, if_pos rfl]
    | some t =>
        have ht : 0 ≤ t := hi t rfl
        rw [nextIdx_some,
          if_neg (fun h => by rw [Option.some_inj] at h; omega)]
        rw [jsNum_some, Option.some_inj]
        omega

/-- Witness for C7 (amended) at `n = 5`, state `(c, z, Q, i) = (2, 3, 4, 1)`
and `d = 1`. -/
theorem C7_roundtrip_witness :
    Nat.Prime 5 ∧ accC7w.c ≠ 0 ∧ mapW5 1 + accC7w.c ≠ 0 ∧
    (∀ t : ℤ, accC7w.i = some t → 0 ≤ t) ∧
    (accC7w.Q ≠ infPoint 5 → accC7w.c * accC7w.Q ≠ basePoint 5) ∧
    (Accumulator.del mapW5 (Accumulator.add mapW5 accC7w 1).1
      (Accumulator.add mapW5 accC7w 1).2.toWitness).map Prod.fst =
      some accC7w := by
  have hp : Nat.Prime 5 := by norm_num
  have h1 : accC7w.c ≠ 0 := by decide
  have h2 : mapW5 1 + accC7w.c ≠ 0 := by decide
  have h3 : ∀ t : ℤ, accC7w.i = some t → 0 ≤ t := by
    intro t h
    have h' : t = 1 := by
      have := h.symm
      simp only [accC7w, Option.some_inj] at this
      omega
    omega
  have h4 : accC7w.Q ≠ infPoint 5 → accC7w.c * accC7w.Q ≠ basePoint 5 :=
    fun _ => by decide
  exact ⟨hp, h1, h2, h3, h4,
    @C7_roundtrip 5 ⟨hp⟩ mapW5 accC7w 1 h1 h2 h3 h4⟩

/-- C2 (counterexample).  Trustless proving fails when an element was added
twice: over `Z_7` with `c = 1`, after `add(2); add(3); add(3)` and an honest
deletion of one `3` (the emitted records being replayed by the prover in
emission order), the element `2` is still accumulated, but the witness the
prover computes for it fails `Accumulator.verify` — the prover's
`filter(v => v !== e)` dropped BOTH copies of `3`, desynchronising its
element list. -/
theorem C2_trustless_proving_cex :
    TraceOK mapW7 anyOp delMem (initState 7 1) opsC2 ∧
    runSim mapW7 (initState 7 1) opsC2 = some stC2 ∧
    mapW7 2 ∈ stC2.A ∧
    Prover.prove mapW7 stC2.prov 2 = some witC2 ∧
    Accumulator.verify mapW7 stC2.acc witC2 = false := by
  have ht : TraceOK mapW7 anyOp delMem (initState 7 1) opsC2 := by
    refine TraceOK.cons _ _ _ _ ?_ rfl (TraceOK.cons _ _ _ _ ?_ rfl
      (TraceOK.cons _ _ _ _ ?_ rfl (TraceOK.cons _ _ _ _ ?_ rfl
        (TraceOK.nil _))))
    · exact trivial
    · exact trivial
    · exact trivial
    · show mapW7 3 ∈ _
      decide
  exact ⟨ht, rfl, by decide, rfl, by decide⟩

/-- C2 (amended).  Trustless proving holds when the accumulated scalars are
pairwise distinct: for every trace whose additions add scalars not already
accumulated and whose deletions remove accumulated scalars (nonzero secret
not of small order), and every currently accumulated element `d`, the
witness `{d, v, w}` returned by `Prover.prove(d)` after full update-stream
replay satisfies both `Accumulator.verify` and `Prover.verify`. -/
theorem C2_trustless_proving {n : ℕ} [Fact (Nat.Prime n)]
    (mapH : Data → ZMod n) (c : ZMod n) (hc0 : c ≠ 0) (ops : List (Op n))
    (st : SimState n)
    (ht : TraceOK mapH addFresh (delMemOrd c) (initState n c) ops)
    (hr : runSim mapH (initState n c) ops = some st)
    (d : Data) (hd : mapH d ∈ st.A) :
    ∃ v w : ZMod n,
      Prover.prove mapH st.prov d = some ⟨d, v, w⟩ ∧
      Accumulator.verify mapH st.acc ⟨d, v, w⟩ = true ∧
      Prover.verify mapH st.prov ⟨d, v, w⟩ = some true := by
  obtain ⟨⟨hcc, hz⟩, ⟨-, hqi, hpi, hpQ, hpz⟩, hlist, hnd⟩ :=
    runSim_InvFull mapH c hc0 ops _ st (initState_InvFull c) ht hr
  have hAne : st.A ≠ 0 := by
    intro h0
    rw [h0] at hd
    exact Multiset.not_mem_zero _ hd
  rcases hqi with ⟨h0, -, -⟩ | ⟨-, hiv, -⟩
  · exact absurd h0 hAne
  have hndL : st.prov.A.Nodup := Multiset.coe_nodup.mp (by rw [hlist]; exact hnd)
  have hmemL : mapH d ∈ st.prov.A := Multiset.mem_coe.mp (by rw [hlist]; exact hd)
  have hlen : st.prov.A.length = Multiset.card st.A := by
    rw [← hlist]
    exact (Multiset.coe_card _).symm
  have hi' : st.prov.i = some ((st.prov.A.length : ℤ) - 1) := by
    rw [hpi, hiv, hlen]
  have hQ' : ∀ j : ℕ, j ≤ st.prov.A.length →
      st.prov.Q (j : ℤ) = some (c ^ j) := by
    intro j hj
    have h := hpQ j (by rw [← hlen]; exact hj)
    rwa [basePoint_eq_one, mul_one] at h
  have hprove := prove_correct mapH c st.prov d hndL hmemL hi' hQ'
  have hbridge : ((st.A.erase (mapH d)).map (· + c)).prod =
      ((st.prov.A.erase (mapH d)).map (· + c)).prod := by
    rw [← hlist, Multiset.coe_erase, Multiset.map_coe, Multiset.prod_coe]
  have hP : (mapH d + c) * ((st.A.erase (mapH d)).map (· + c)).prod =
      (st.A.map (· + c)).prod :=
    @Multiset.prod_map_erase (ZMod n) (ZMod n) _ st.A
      (fun x => x + c) _ (mapH d) hd
  have hzv : st.acc.z =
      (mapH d + c) * ((st.prov.A.erase (mapH d)).map (· + c)).prod := by
    rw [hz, basePoint_eq_one, mul_one, ← hP, hbridge]
  refine ⟨((st.prov.A.erase (mapH d)).map (· + c)).prod,
    c * ((st.prov.A.erase (mapH d)).map (· + c)).prod, hprove, ?_, ?_⟩
  · apply verify_of_eq
    show st.acc.z = (mapH d + st.acc.c) * _
    rw [hcc]
    exact hzv
  · rcases hpz with ⟨-, h0⟩ | hsome
    · exact absurd h0 hAne
    simp only [Prover.verify, hsome, Option.map_some']
    congr 1
    apply decide_eq_true
    show st.acc.z = mapH d * _ + c * _
    rw [hzv]
    ring

/-- Witness for C2 (amended): `add(1); add(2)` over `Z_5` with `c = 2`,
then proving the accumulated element `1`. -/
theorem C2_trustless_proving_witness :
    Nat.Prime 5 ∧ (2 : ZMod 5) ≠ 0 ∧
    TraceOK mapW5 addFresh (delMemOrd 2) (initState 5 2) opsC2w ∧
    runSim mapW5 (initState 5 2) opsC2w = some stC2w ∧
    mapW5 1 ∈ stC2w.A ∧
    (∃ v w : ZMod 5,
      Prover.prove mapW5 stC2w.prov 1 = some ⟨1, v, w⟩ ∧
      Accumulator.verify mapW5 stC2w.acc ⟨1, v, w⟩ = true ∧
      Prover.verify mapW5 stC2w.prov ⟨1, v, w⟩ = some true) := by
  have hp : Nat.Prime 5 := by norm_num
  have h2 : (2 : ZMod 5) ≠ 0 := by decide
  have ht : TraceOK mapW5 addFresh (delMemOrd 2) (initState 5 2) opsC2w := by
    refine TraceOK.cons _ _ _ _ ?_ rfl
      (TraceOK.cons _ _ _ _ ?_ rfl (TraceOK.nil _))
    · show mapW5 1 ∉ (0 : Multiset (ZMod 5))
      decide
    · show mapW5 2 ∉ _
      decide
  have hd : mapW5 1 ∈ stC2w.A := by decide
  exact ⟨hp, h2, ht, rfl, hd,
    @C2_trustless_proving 5 ⟨hp⟩ mapW5 2 h2 opsC2w stC2w ht rfl 1 hd⟩

/-- C8 (counterexample).  Prover simulation fails for the legal small-order
secret `c = 4 = -1` over `Z_5`: after the honest trace
`add(2); add(3); add(0); del(0); del(3)` (pairwise-distinct scalars, honest
deletions, messages replayed in emission order), the cursor is `0` but the
prover's stored `Q[1]` is `O`, not `g·c` — the accumulator's `Q = g` branch
misfired at count `3` because `c² = 1`. -/
theorem C8_prover_tracks_cex :
    TraceOK mapW5 addFresh delMem (initState 5 4) opsC8 ∧
    runSim mapW5 (initState 5 4) opsC8 = some stC8 ∧
    stC8.acc.i = some 0 ∧
    stC8.prov.Q ((1 : ℕ) : ℤ) ≠ some ((4 : ZMod 5) ^ 1 * basePoint 5) := by
  have ht : TraceOK mapW5 addFresh delMem (initState 5 4) opsC8 := by
    refine TraceOK.cons _ _ _ _ ?_ rfl (TraceOK.cons _ _ _ _ ?_ rfl
      (TraceOK.cons _ _ _ _ ?_ rfl (TraceOK.cons _ _ _ _ ?_ rfl
        (TraceOK.cons _ _ _ _ ?_ rfl (TraceOK.nil _)))))
    · show mapW5 2 ∉ (0 : Multiset (ZMod 5))
      decide
    · show mapW5 3 ∉ _
      decide
    · show mapW5 0 ∉ _
      decide
    · show mapW5 0 ∈ _
      decide
    · show mapW5 3 ∈ _
      decide
  exact ⟨ht, rfl, by decide, by decide⟩

/-- C8 (amended).  For traces with honest deletions and a nonzero secret
not of small order, after each message the prover's `z` equals the
accumulator's `z`, the cursors agree, and `Prover.Q[j] = g · c^j` for every
`0 ≤ j ≤ i + 1` (reading the range as `{0}` when the cursor is `⊥`). -/
theorem C8_prover_tracks {n : ℕ} [Fact (Nat.Prime n)]
    (mapH : Data → ZMod n) (c : ZMod n) (hc0 : c ≠ 0) (ops : List (Op n))
    (st : SimState n) (hne : ops ≠ [])
    (ht : TraceOK mapH anyOp (delMemOrd c) (initState n c) ops)
    (hr : runSim mapH (initState n c) ops = some st) :
    st.prov.z = some st.acc.z ∧ st.prov.i = st.acc.i ∧
    ∀ j : ℕ, (st.acc.i = none → j = 0) →
      (∀ t : ℤ, st.acc.i = some t → (j : ℤ) ≤ t + 1) →
      st.prov.Q (j : ℤ) = some (c ^ j * basePoint n) := by
  obtain ⟨-, hqi, hpi, hpQ, -⟩ :=
    runSim_InvPQ mapH c hc0 ops _ st (initState_InvPQ c) ht hr
  refine ⟨runSim_prov_z mapH ops _ st hne hr, hpi, ?_⟩
  intro j hnone hsome
  apply hpQ
  rcases hqi with ⟨hA0, hi0, -⟩ | ⟨hAne, hiv, -⟩
  · rw [hnone hi0, hA0]
    exact Nat.zero_le _
  · have hj := hsome _ hiv
    have hk1 : 1 ≤ Multiset.card st.A := Multiset.card_pos.mpr hAne
    omega

/-- Witness for C8 (amended): the trace `add(1)` over `Z_5` with `c = 2`;
afterwards `Q[1] = g · c`. -/
theorem C8_prover_tracks_witness :
    Nat.Prime 5 ∧ (2 : ZMod 5) ≠ 0 ∧ opsC8w ≠ [] ∧
    TraceOK mapW5 anyOp (delMemOrd 2) (initState 5 2) opsC8w ∧
    runSim mapW5 (initState 5 2) opsC8w = some stC8w ∧
    stC8w.prov.z = some stC8w.acc.z ∧
    stC8w.prov.Q ((1 : ℕ) : ℤ) = some ((2 : ZMod 5) ^ 1 * basePoint 5) := by
  have hp : Nat.Prime 5 := by norm_num
  have h2 : (2 : ZMod 5) ≠ 0 := by decide
  have hne : opsC8w ≠ [] := by simp [opsC8w]
  have ht : TraceOK mapW5 anyOp (delMemOrd 2) (initState 5 2) opsC8w := by
    refine TraceOK.cons _ _ _ _ ?_ rfl (TraceOK.nil _)
    exact trivial
  have h := @C8_prover_tracks 5 ⟨hp⟩ mapW5 2 h2 opsC8w stC8w hne ht rfl
  refine ⟨hp, h2, hne, ht, rfl, h.1, ?_⟩
  apply h.2.2 1
  · intro hno
    exact absurd hno (by decide)
  · intro t hsome
    have h0 : stC8w.acc.i = some 0 := by decide
    rw [h0, Option.some_inj] at hsome
    omega
